import Mathlib

/-!
Verification of the MCTS search engine of AlphaGomoku (`utility/mcts.py`,
classes `MCTS` and `MCTSPlayer`).

Modelling conventions:
* A board is a list of rows of integer cell values, mirroring the
  `state.tolist()` lists the Python code works with.  The Python code keys its
  dictionaries by `np.array_str(state)`, which is injective on integer boards,
  so the board itself serves as the lookup key.
* Python dictionaries are association lists; assignment is modelled by
  prepending (lookup finds the most recent binding).  A dictionary read of a
  missing key (a `KeyError`) and an out-of-range list index (`IndexError`)
  abort the Python call, which is modelled by the involved function returning
  `none`.
* Python floats are modelled as rationals.  `math.sqrt` has no exact rational
  counterpart, so it is supplied as an abstract function `sqrtQ` in the
  environment; no claim depends on its values.
* The collaborators that live in `utility/common.py` (absent from the sources:
  `get_reward`, `get_valid_actions_1d`) are fields of the environment, exactly
  as the spec lists them as external collaborators (spec section 6).
* The recursion of `MCTS.search` is made structural with a fuel parameter;
  `none` also stands for running out of fuel.
* The `print('warning: all moves masked')` diagnostic is modelled by a boolean
  `warned` flag in the statistics store.
-/

set_option maxRecDepth 100000

namespace AlphaGomoku

/-- A board: rows of integer cell values (0 empty, 1 self, 2 opponent). -/
abbrev Board := List (List Int)

/-- Modelled from the spec: `BOARD_SIZE` of `utility/common.py` (not in the
sources), the number of cells / actions of the 15 by 15 board. -/
def BOARD_SIZE : Nat := 225

/-- Modelled from the spec: the row-major bijection from an action index to a
`(row, col)` pair (`index_to_pos` of `utility/common.py`, not in the sources).
`Int.ediv`/`Int.emod` coincide with Python `//` and `%` for the positive
divisor 15. -/
def index_to_pos (a : Int) : Int × Int := (Int.ediv a 15, Int.emod a 15)

/-- `EPS = 1e-8` of `utility/mcts.py`. -/
def EPS : ℚ := 1 / 100000000

/-- `self.c_puct = 5` of `utility/mcts.py`. -/
def c_puct : ℚ := 5

/-- Python list indexing: a negative index within range counts from the end,
anything else out of `[-len, len)` raises. -/
def pyIdx (len : Nat) (i : Int) : Option Nat :=
  if 0 ≤ i then (if i < (len : Int) then some i.toNat else none)
  else (if 0 ≤ i + (len : Int) then some (i + (len : Int)).toNat else none)

/-- Python read `l[i]`. -/
def pyGet {α : Type} (l : List α) (i : Int) : Option α :=
  match pyIdx l.length i with
  | none => none
  | some j => l[j]?

/-- Read a cell `state[r][c]` with Python indexing. -/
def getCell (b : Board) (pos : Int × Int) : Option Int :=
  match pyIdx b.length pos.1 with
  | none => none
  | some ri =>
    match b[ri]? with
    | none => none
    | some row =>
      match pyIdx row.length pos.2 with
      | none => none
      | some ci => row[ci]?

/-- Write a cell `state[r][c] = v` with Python indexing (`none` models the
`IndexError` of an out-of-range index). -/
def setCell (b : Board) (pos : Int × Int) (v : Int) : Option Board :=
  match pyIdx b.length pos.1 with
  | none => none
  | some ri =>
    match b[ri]? with
    | none => none
    | some row =>
      match pyIdx row.length pos.2 with
      | none => none
      | some ci => some (b.set ri (row.set ci v))

/-- `np.count_nonzero(state)`. -/
def count_nonzero (b : Board) : Nat :=
  b.flatten.countP (fun n => decide (n ≠ 0))

/-- The cell relabeling of `MCTS.convert_perspective` (mcts.py line 45):
`n - 1 if n == 2 else n * 2`. -/
def cellFlip (n : Int) : Int := if n = 2 then n - 1 else n * 2

/-- `MCTS.convert_perspective` (mcts.py lines 43-45). -/
def convert_perspective (b : Board) : Board :=
  b.map (fun row => row.map cellFlip)

/-- `MCTSPlayer.convert_to_p1_perspective` (mcts.py lines 153-155): the same
comprehension as `convert_perspective`, on plain lists. -/
def convert_to_p1_perspective (b : Board) : Board :=
  b.map (fun row => row.map cellFlip)

/-- The collaborators `MCTS` calls out to: the policy/value object
(`predict`), and the `utility/common.py` helpers `get_reward(-, 1)` and
`get_valid_actions_1d` (spec section 6).  `sqrtQ` abstracts `math.sqrt`. -/
structure Env where
  predict : Board → List ℚ × ℚ
  get_reward : Board → Int
  get_valid_actions_1d : Board → List Int
  sqrtQ : ℚ → ℚ

/-- The mutable statistics store of an `MCTS` object (mcts.py lines 24-35),
plus the `warned` flag modelling the degenerate-policy diagnostic print. -/
structure MCTSState where
  sa_q : List ((Board × Int) × ℚ)
  sa_n : List ((Board × Int) × Nat)
  s_n : List (Board × Nat)
  s_p : List (Board × List ℚ)
  s_r : List (Board × Int)
  s_valid_moves : List (Board × List Int)
  warned : Bool

/-- The store of a freshly constructed `MCTS` object: all dictionaries empty. -/
def emptyStore : MCTSState :=
  { sa_q := [], sa_n := [], s_n := [], s_p := [], s_r := [],
    s_valid_moves := [], warned := false }

/-- Association-list lookup; the first binding wins, so prepending models
dictionary assignment. -/
def lookup {α β : Type} [DecidableEq α] : List (α × β) → α → Option β
  | [], _ => none
  | (k, v) :: rest, k' => if k' = k then some v else lookup rest k'

/-- Lines 52-53 of mcts.py: cache `get_reward` for the state on first sight. -/
def cacheReward (env : Env) (st : MCTSState) (s : Board) : MCTSState :=
  if (lookup st.s_r s).isSome then st
  else { st with s_r := (s, env.get_reward s) :: st.s_r }

/-- Lines 66-67 of mcts.py: the prior vector with illegal actions zeroed.
`probs[i] * mask[i]` equals `probs[i]` for legal `i` and `0` otherwise. -/
def maskedPriors (probs : List ℚ) (valid : List Int) : List ℚ :=
  (List.range BOARD_SIZE).map
    (fun i : Nat =>
      if ((i : Int) ∈ valid) then (pyGet probs (i : Int)).getD 0 else 0)

/-- Lines 68-78 of mcts.py: the prior vector actually stored — uniform over
all 225 slots when the masked sum is zero, renormalized when the masked sum
differs from 1, the masked vector itself otherwise.  The fallback divides by
`probs.size`, which is always 225 for the masked vector. -/
def normalizedPriors (env : Env) (s : Board) : List ℚ :=
  let masked := maskedPriors (env.predict s).1 (env.get_valid_actions_1d s)
  let psum := masked.sum
  if psum = 0 then List.replicate BOARD_SIZE ((1 : ℚ) / (BOARD_SIZE : ℚ))
  else if psum ≠ 1 then masked.map (fun x => x / psum)
  else masked

/-- Lines 62-81 of mcts.py: leaf expansion — record the oracle's legal
actions, mask and normalize the priors (uniform fallback plus warning when the
masked sum is zero), store the vector and a zero visit count. -/
def expandState (env : Env) (st : MCTSState) (s : Board) : MCTSState :=
  { st with
    s_valid_moves := (s, env.get_valid_actions_1d s) :: st.s_valid_moves,
    s_p := (s, normalizedPriors env s) :: st.s_p,
    s_n := (s, 0) :: st.s_n,
    warned := st.warned ||
      decide ((maskedPriors (env.predict s).1 (env.get_valid_actions_1d s)).sum = 0) }

/-- Lines 91-96 of mcts.py: the PUCT score of action `a` at state `s`, where
`p` is the stored prior vector and `ns` the stored state visit count. -/
def puctScore (env : Env) (st : MCTSState) (s : Board) (p : List ℚ) (ns : Nat)
    (a : Int) : ℚ :=
  match lookup st.sa_q (s, a) with
  | some q =>
      q + c_puct * (pyGet p a).getD 0 * env.sqrtQ (ns : ℚ)
        / (1 + ((lookup st.sa_n (s, a)).getD 0 : ℚ))
  | none => c_puct * (pyGet p a).getD 0 * env.sqrtQ ((ns : ℚ) + EPS)

/-- Lines 87-100 of mcts.py: scan the legal actions keeping the first action
whose score strictly exceeds the best so far; the initial best is `-inf`
(modelled by `none`, beaten by every finite score) and the initial action is
`-1`. -/
def selStep (score : Int → ℚ) (acc : Option ℚ × Int) (a : Int) : Option ℚ × Int :=
  match acc.1 with
  | none => (some (score a), a)
  | some bs => if score a > bs then (some (score a), a) else acc

def selectAction (score : Int → ℚ) (actions : List Int) : Int :=
  (actions.foldl (selStep score) ((none : Option ℚ), (-1 : Int))).2

/-- Lines 108-118 of mcts.py: back up `value` through edge `(s, a)` — update
the running mean and visit count of the edge (creating it at `(value, 1)` when
absent) and increment the state visit count.  A missing `sa_n` or `s_n` entry
is a Python `KeyError`, hence `none`. -/
def backup (st : MCTSState) (s : Board) (a : Int) (v : ℚ) : Option MCTSState :=
  let st1 :=
    match lookup st.sa_q (s, a) with
    | some q =>
      match lookup st.sa_n (s, a) with
      | none => none
      | some n =>
        some { st with
               sa_q := ((s, a), ((n : ℚ) * q + v) / ((n : ℚ) + 1)) :: st.sa_q,
               sa_n := ((s, a), n + 1) :: st.sa_n }
    | none =>
      some { st with
             sa_q := ((s, a), v) :: st.sa_q,
             sa_n := ((s, a), 1) :: st.sa_n }
  match st1 with
  | none => none
  | some st2 =>
    match lookup st2.s_n s with
    | none => none
    | some k => some { st2 with s_n := (s, k + 1) :: st2.s_n }

/-- One unfolding of `MCTS.search` (mcts.py lines 48-119), with the recursive
call abstracted as `rec`: terminal check (lines 52-57), leaf expansion (lines
61-83), PUCT selection (lines 85-104), recursion and backup (lines 106-119). -/
def searchStep (env : Env) (rec : MCTSState → Board → Option (ℚ × MCTSState))
    (st : MCTSState) (s : Board) : Option (ℚ × MCTSState) :=
  let st1 := cacheReward env st s
  let r := (lookup st1.s_r s).getD 0
  if r ≠ 0 ∨ count_nonzero s = BOARD_SIZE then
    some ((-r : Int), st1)
  else
    match lookup st1.s_p s with
    | none => some (-(env.predict s).2, expandState env st1 s)
    | some p =>
      match lookup st1.s_valid_moves s, lookup st1.s_n s with
      | some valid, some ns =>
        let best := selectAction (puctScore env st1 s p ns) valid
        match setCell (convert_perspective s) (index_to_pos best) 2 with
        | none => none
        | some next_s =>
          match rec st1 next_s with
          | none => none
          | some (value, st4) =>
            match backup st4 s best value with
            | none => none
            | some st5 => some (-value, st5)
      | _, _ => none

/-- `MCTS.search` with fuel (the Python recursion is bounded in practice by
the number of empty cells; `none` models both exhaustion and an exception). -/
def search (env : Env) : Nat → MCTSState → Board → Option (ℚ × MCTSState)
  | 0, _, _ => none
  | fuel + 1, st, s => searchStep env (search env fuel) st s

/-- The playout loop of `MCTS.get_probs` (mcts.py lines 122-123): run `search`
from the root `n` times, threading the store. -/
def runPlayouts (env : Env) (fuel : Nat) (st : MCTSState) (s : Board) :
    Nat → Option MCTSState
  | 0 => some st
  | n + 1 =>
    match search env fuel st s with
    | none => none
    | some (_, st') => runPlayouts env fuel st' s n

/-- Line 127 of mcts.py: the root edge visit counts, zero for absent edges. -/
def rootCounts (st : MCTSState) (s : Board) : List Nat :=
  (List.range BOARD_SIZE).map (fun i => (lookup st.sa_n (s, (i : Int))).getD 0)

/-- The sum of the root edge visit counts (`counts_sum`, line 129). -/
def rootCountSum (st : MCTSState) (s : Board) : Nat :=
  (rootCounts st s).sum

/-- `MCTS.get_probs` (mcts.py lines 121-132); `n` is `self.playout_count`.
A zero count sum makes line 130 raise `ZeroDivisionError`, hence `none`. -/
def get_probs (env : Env) (fuel : Nat) (st : MCTSState) (s : Board) (n : Nat) :
    Option (List ℚ × MCTSState) :=
  match runPlayouts env fuel st s n with
  | none => none
  | some st' =>
    let counts := rootCounts st' s
    let csum := counts.sum
    if csum = 0 then none
    else some (counts.map (fun c => (c : ℚ) / (csum : ℚ)), st')

/-- Python `list.index(m)`: index of the first occurrence. -/
def firstIdxOf (m : ℚ) : List ℚ → Nat
  | [] => 0
  | x :: xs => if x = m then 0 else firstIdxOf m xs + 1

/-- `probs.index(max(probs))` of line 149 (the argument list is never empty in
the code: `get_probs` always returns 225 entries). -/
def probsArgmax (l : List ℚ) : Nat :=
  match l with
  | [] => 0
  | x :: xs => firstIdxOf (xs.foldl max x) (x :: xs)

/-- `MCTSPlayer.choose_action` (mcts.py lines 140-151): convert a player-2
board to player 1's perspective, answer the fixed center cell on an entirely
empty board, otherwise run the distribution builder and take the argmax. -/
def choose_action (env : Env) (player_num : Int) (fuel : Nat) (st : MCTSState)
    (n : Nat) (state : Board) : Option ((Int × Int) × MCTSState) :=
  let state1 := if player_num = 2 then convert_to_p1_perspective state else state
  if count_nonzero state1 = 0 then some (((7 : Int), (7 : Int)), st)
  else
    match get_probs env fuel st state1 n with
    | none => none
    | some (probs, st') => some (index_to_pos (probsArgmax probs), st')

/-- The reward the terminal check of `search` reads on line 56: the cached
value when the key is present, the freshly cached `get_reward` otherwise. -/
def cachedReward (env : Env) (st : MCTSState) (s : Board) : Int :=
  (lookup st.s_r s).getD (env.get_reward s)

/-- An action index that is in range and names an empty cell of `b` (the
contract of the legal-move oracle, spec section 6). -/
def goodAction (b : Board) (a : Int) : Prop :=
  0 ≤ a ∧ a < (BOARD_SIZE : Int) ∧ getCell b (index_to_pos a) = some 0

/-- An environment whose legal-move oracle returns a nonempty list of
in-range empty cells on every non-terminal board. -/
def goodEnv (env : Env) : Prop :=
  ∀ b, env.get_reward b = 0 → count_nonzero b ≠ BOARD_SIZE →
    env.get_valid_actions_1d b ≠ [] ∧
      ∀ a ∈ env.get_valid_actions_1d b, goodAction b a

/-- Store coherence, as established by running `search` from a fresh store:
cached rewards and legal-move lists agree with the environment, expanded
states are non-terminal, and an expanded state has its legal-move list and
visit count present. -/
structure Coherent (env : Env) (st : MCTSState) : Prop where
  r_cache : ∀ b r, lookup st.s_r b = some r → r = env.get_reward b
  vm_cache : ∀ b l, lookup st.s_valid_moves b = some l →
    l = env.get_valid_actions_1d b
  p_nonterm : ∀ b p, lookup st.s_p b = some p →
    env.get_reward b = 0 ∧ count_nonzero b ≠ BOARD_SIZE
  p_vm : ∀ b, (lookup st.s_p b).isSome → (lookup st.s_valid_moves b).isSome
  p_n : ∀ b, (lookup st.s_p b).isSome → (lookup st.s_n b).isSome
  qn_dom : ∀ k, (lookup st.sa_q k).isSome ↔ (lookup st.sa_n k).isSome

/-- Bounds on the stored statistics for claim C7: every edge mean lies in
[-1,1] and every cached reward in {-1,0,1}. -/
def BoundedStore (st : MCTSState) : Prop :=
  (∀ k q, lookup st.sa_q k = some q → -1 ≤ q ∧ q ≤ 1) ∧
    (∀ b r, lookup st.s_r b = some r → r = -1 ∨ r = 0 ∨ r = 1)

/-- `b` is the first element of `l` attaining the strict maximum of `score`:
everything before it scores strictly lower, everything after it scores no
higher. -/
def firstArgmax (score : Int → ℚ) (l : List Int) (b : Int) : Prop :=
  ∃ l1 l2, l = l1 ++ b :: l2 ∧ (∀ a ∈ l1, score a < score b) ∧
    ∀ a ∈ l2, score a ≤ score b

/-! ### Shared concrete inputs for witnesses -/

/-- A two-cell board used as a concrete root in witnesses. -/
def bW : Board := [[0, 0]]

/-- A concrete environment for witnesses: priors all 1, board `bW` the only
non-terminal state, action 1 the only legal move, an arbitrary square-root
stand-in. -/
def envW : Env :=
  { predict := fun _ => (List.replicate BOARD_SIZE 1, 0),
    get_reward := fun b => if b = bW then 0 else 1,
    get_valid_actions_1d := fun _ => [1],
    sqrtQ := fun _ => 0 }

/-- The empty 15 by 15 board. -/
def emptyBoard : Board := List.replicate 15 (List.replicate 15 0)

/-- A canonical board holding one stone of each player: `convert_perspective`
swaps the two stone values, so it is not a no-op on this board. -/
def cexBoard : Board :=
  (1 :: 2 :: List.replicate 13 0) :: List.replicate 14 (List.replicate 15 0)

/-- A concrete store in which `bW` is already expanded and its edge for
action 1 has been visited (mean 1/2, three visits, four state visits). -/
def stC5 : MCTSState :=
  { sa_q := [((bW, 1), 1/2)], sa_n := [((bW, 1), 3)], s_n := [(bW, 4)],
    s_p := [(bW, List.replicate BOARD_SIZE 1)], s_r := [(bW, 0)],
    s_valid_moves := [(bW, [1])], warned := false }

/-! ### Basic lemmas about the embedding -/

theorem lookup_cons {α β : Type} [DecidableEq α] (k : α) (v : β)
    (rest : List (α × β)) (k' : α) :
    lookup ((k, v) :: rest) k' = if k' = k then some v else lookup rest k' := rfl

theorem map_fix_iff {α : Type} (f : α → α) (l : List α) :
    l.map f = l ↔ ∀ x ∈ l, f x = x := by
  induction l with
  | nil => simp
  | cons x xs ih => simp [ih]

theorem cellFlip_zero_iff (n : Int) : cellFlip n = 0 ↔ n = 0 := by
  unfold cellFlip; split <;> omega

theorem countP_map_cellFlip (row : List Int) :
    (row.map cellFlip).countP (fun n => decide (n ≠ 0))
      = row.countP (fun n => decide (n ≠ 0)) := by
  induction row with
  | nil => rfl
  | cons x xs ih =>
    rw [List.map_cons, List.countP_cons, List.countP_cons, ih]
    congr 1
    simp [cellFlip_zero_iff]

theorem count_nonzero_convert (b : Board) :
    count_nonzero (convert_perspective b) = count_nonzero b := by
  unfold count_nonzero convert_perspective
  induction b with
  | nil => rfl
  | cons row rest ih =>
    rw [List.map_cons, List.flatten_cons, List.flatten_cons,
      List.countP_append, List.countP_append, countP_map_cellFlip, ih]

theorem count_nonzero_eq_zero_iff (b : Board) :
    count_nonzero b = 0 ↔ ∀ row ∈ b, ∀ x ∈ row, x = 0 := by
  unfold count_nonzero
  rw [List.countP_eq_zero]
  constructor
  · intro h row hrow x hx
    have := h x (List.mem_flatten.mpr ⟨row, hrow, hx⟩)
    simpa using this
  · intro h x hx
    obtain ⟨row, hrow, hxr⟩ := List.mem_flatten.mp hx
    simpa using h row hrow x hxr

theorem convert_fix_cell (n : Int) (h : n = 0 ∨ n = 1 ∨ n = 2) :
    cellFlip n = n ↔ n = 0 := by
  rcases h with h | h | h <;> subst h <;> decide

theorem cellFlip_flip (n : Int) (h : n = 0 ∨ n = 1 ∨ n = 2) :
    cellFlip (cellFlip n) = n := by
  rcases h with h | h | h <;> subst h <;> decide

/-! ### Unfolding lemmas for `search` -/

theorem search_succ (env : Env) (fuel : Nat) (st : MCTSState) (s : Board) :
    search env (fuel + 1) st s = searchStep env (search env fuel) st s := rfl

@[simp] theorem cacheReward_sa_q (env : Env) (st : MCTSState) (s : Board) :
    (cacheReward env st s).sa_q = st.sa_q := by
  unfold cacheReward; split <;> rfl

@[simp] theorem cacheReward_sa_n (env : Env) (st : MCTSState) (s : Board) :
    (cacheReward env st s).sa_n = st.sa_n := by
  unfold cacheReward; split <;> rfl

@[simp] theorem cacheReward_s_n (env : Env) (st : MCTSState) (s : Board) :
    (cacheReward env st s).s_n = st.s_n := by
  unfold cacheReward; split <;> rfl

@[simp] theorem cacheReward_s_p (env : Env) (st : MCTSState) (s : Board) :
    (cacheReward env st s).s_p = st.s_p := by
  unfold cacheReward; split <;> rfl

@[simp] theorem cacheReward_s_valid_moves (env : Env) (st : MCTSState) (s : Board) :
    (cacheReward env st s).s_valid_moves = st.s_valid_moves := by
  unfold cacheReward; split <;> rfl

@[simp] theorem cacheReward_warned (env : Env) (st : MCTSState) (s : Board) :
    (cacheReward env st s).warned = st.warned := by
  unfold cacheReward; split <;> rfl

@[simp] theorem lookup_cacheReward_self (env : Env) (st : MCTSState) (s : Board) :
    lookup (cacheReward env st s).s_r s = some (cachedReward env st s) := by
  unfold cacheReward cachedReward
  cases h : lookup st.s_r s with
  | none => simp [h, lookup]
  | some r => simp [h]

theorem lookup_cacheReward_s_r (env : Env) (st : MCTSState) (s b : Board) (r : Int)
    (h : lookup (cacheReward env st s).s_r b = some r) :
    lookup st.s_r b = some r ∨ (b = s ∧ r = env.get_reward s) := by
  unfold cacheReward at h
  split at h
  · exact Or.inl h
  · rw [lookup_cons] at h
    by_cases hb : b = s
    · rw [if_pos hb] at h
      exact Or.inr ⟨hb, (Option.some.inj h).symm⟩
    · rw [if_neg hb] at h
      exact Or.inl h

@[simp] theorem expandState_sa_q (env : Env) (st : MCTSState) (s : Board) :
    (expandState env st s).sa_q = st.sa_q := rfl

@[simp] theorem expandState_sa_n (env : Env) (st : MCTSState) (s : Board) :
    (expandState env st s).sa_n = st.sa_n := rfl

@[simp] theorem expandState_s_r (env : Env) (st : MCTSState) (s : Board) :
    (expandState env st s).s_r = st.s_r := rfl

@[simp] theorem expandState_s_p (env : Env) (st : MCTSState) (s : Board) :
    (expandState env st s).s_p = (s, normalizedPriors env s) :: st.s_p := rfl

@[simp] theorem expandState_s_n (env : Env) (st : MCTSState) (s : Board) :
    (expandState env st s).s_n = (s, 0) :: st.s_n := rfl

@[simp] theorem expandState_s_valid_moves (env : Env) (st : MCTSState) (s : Board) :
    (expandState env st s).s_valid_moves
      = (s, env.get_valid_actions_1d s) :: st.s_valid_moves := rfl

@[simp] theorem expandState_warned (env : Env) (st : MCTSState) (s : Board) :
    (expandState env st s).warned = (st.warned ||
      decide ((maskedPriors (env.predict s).1 (env.get_valid_actions_1d s)).sum = 0)) := rfl

/-- The terminal branch of `searchStep` (mcts.py lines 52-57). -/
theorem searchStep_terminal (env : Env)
    (rec : MCTSState → Board → Option (ℚ × MCTSState)) (st : MCTSState) (s : Board)
    (h : cachedReward env st s ≠ 0 ∨ count_nonzero s = BOARD_SIZE) :
    searchStep env rec st s
      = some (((-(cachedReward env st s) : Int) : ℚ), cacheReward env st s) := by
  unfold searchStep
  simp only [lookup_cacheReward_self, Option.getD_some]
  rw [if_pos h]

/-- The leaf-expansion branch of `searchStep` (mcts.py lines 61-83). -/
theorem searchStep_expand (env : Env)
    (rec : MCTSState → Board → Option (ℚ × MCTSState)) (st : MCTSState) (s : Board)
    (hr : cachedReward env st s = 0) (hc : count_nonzero s ≠ BOARD_SIZE)
    (hp : lookup st.s_p s = none) :
    searchStep env rec st s
      = some (-(env.predict s).2, expandState env (cacheReward env st s) s) := by
  unfold searchStep
  simp only [lookup_cacheReward_self, Option.getD_some, cacheReward_s_p]
  rw [if_neg (by simp [hr, hc]), hp]

/-- The selection branch of `searchStep` (mcts.py lines 85-119): select by
PUCT score, recurse on the flipped board with the chosen stone added, back
the value up, and return its negation. -/
theorem searchStep_select (env : Env)
    (rec : MCTSState → Board → Option (ℚ × MCTSState)) (st : MCTSState) (s : Board)
    (p : List ℚ) (valid : List Int) (ns : Nat)
    (hr : cachedReward env st s = 0) (hc : count_nonzero s ≠ BOARD_SIZE)
    (hp : lookup st.s_p s = some p)
    (hvm : lookup st.s_valid_moves s = some valid)
    (hn : lookup st.s_n s = some ns) :
    searchStep env rec st s =
      (match setCell (convert_perspective s)
          (index_to_pos (selectAction
            (puctScore env (cacheReward env st s) s p ns) valid)) 2 with
       | none => none
       | some next_s =>
         match rec (cacheReward env st s) next_s with
         | none => none
         | some (value, st4) =>
           match backup st4 s
               (selectAction (puctScore env (cacheReward env st s) s p ns) valid)
               value with
           | none => none
           | some st5 => some (-value, st5)) := by
  unfold searchStep
  simp only [lookup_cacheReward_self, Option.getD_some, cacheReward_s_p,
    cacheReward_s_valid_moves, cacheReward_s_n]
  rw [if_neg (by simp [hr, hc]), hp, hvm, hn]

/-! ### Claim C2 (corrected) and claim C10 -/

/-- Claim C2, counterexample: `cexBoard` is a canonical board (cells in
{0,1,2}), yet the perspective conversion changes it (cell (0,0) becomes 2). -/
theorem c2_counterexample :
    (∀ row ∈ cexBoard, ∀ x ∈ row, x = 0 ∨ x = 1 ∨ x = 2) ∧
      convert_perspective cexBoard ≠ cexBoard := by
  constructor
  · decide
  · decide

/-- Claim C2, amended: on a board with cells in {0,1,2} the perspective
conversion fixes value 0 and swaps 1 with 2, so it leaves every cell unchanged
exactly when the board has no stones at all. -/
theorem c2_amended_convert_noop_iff_empty (b : Board)
    (h : ∀ row ∈ b, ∀ x ∈ row, x = 0 ∨ x = 1 ∨ x = 2) :
    convert_perspective b = b ↔ ∀ row ∈ b, ∀ x ∈ row, x = 0 := by
  unfold convert_perspective
  rw [map_fix_iff]
  constructor
  · intro hfix row hrow x hx
    have hx' := (map_fix_iff cellFlip row).mp (hfix row hrow) x hx
    exact (convert_fix_cell x (h row hrow x hx)).mp hx'
  · intro hz row hrow
    rw [map_fix_iff]
    intro x hx
    exact (convert_fix_cell x (h row hrow x hx)).mpr (hz row hrow x hx)

/-- Witness for the amended claim C2 at the all-zero two-cell board. -/
theorem c2_amended_witness : convert_perspective bW = bW :=
  (c2_amended_convert_noop_iff_empty bW (by decide)).mpr (by decide)

/-- Claim C10: on boards with cells in {0,1,2}, applying
`convert_perspective` twice restores the board (the conversion is an
involution swapping 1 and 2 and fixing 0). -/
theorem c10_convert_involution (b : Board)
    (h : ∀ row ∈ b, ∀ x ∈ row, x = 0 ∨ x = 1 ∨ x = 2) :
    convert_perspective (convert_perspective b) = b := by
  unfold convert_perspective
  rw [List.map_map]
  rw [map_fix_iff]
  intro row hrow
  show (row.map cellFlip).map cellFlip = row
  rw [List.map_map, map_fix_iff]
  intro x hx
  exact cellFlip_flip x (h row hrow x hx)

/-- Witness for claim C10 at a concrete board holding all three cell values. -/
theorem c10_witness :
    convert_perspective (convert_perspective [[0, 1, 2]]) = [[0, 1, 2]] :=
  c10_convert_involution [[0, 1, 2]] (by decide)

/-! ### Claim C8 -/

/-- Claim C8: on an entirely empty board `choose_action` answers the center
cell (7,7) for every environment (so no evaluator, `get_probs` or `search`
call is involved) and leaves the statistics store untouched. -/
theorem c8_empty_board_center (env : Env) (player_num : Int) (fuel n : Nat)
    (st : MCTSState) (b : Board) (h : ∀ row ∈ b, ∀ x ∈ row, x = 0) :
    choose_action env player_num fuel st n b = some ((7, 7), st) := by
  have hb : count_nonzero b = 0 := (count_nonzero_eq_zero_iff b).mpr h
  have h1 : count_nonzero
      (if player_num = 2 then convert_to_p1_perspective b else b) = 0 := by
    split
    · show count_nonzero (convert_perspective b) = 0
      rw [count_nonzero_convert]; exact hb
    · exact hb
  unfold choose_action
  simp only [h1, if_pos rfl]
  rfl

/-- Witness for claim C8: the empty 15 by 15 board as player 2. -/
theorem c8_witness :
    choose_action envW 2 0 emptyStore 400 emptyBoard = some ((7, 7), emptyStore) :=
  c8_empty_board_center envW 2 0 400 emptyStore emptyBoard (by decide)

/-! ### Claim C9 -/

/-- Claim C9: the engine is deterministic — two `get_probs` runs from the same
root with the same environment (evaluator, oracle, square root), the same
playout count and fresh statistics stores yield identical results.  In this
embedding every run is the application of one pure function, reflecting that
the Python engine draws no randomness outside the supplied evaluator. -/
theorem c9_determinism (env : Env) (fuel n : Nat) (s : Board)
    (st1 st2 : MCTSState) (h1 : st1 = emptyStore) (h2 : st2 = emptyStore) :
    get_probs env fuel st1 s n = get_probs env fuel st2 s n := by
  rw [h1, h2]

/-- Witness for claim C9 at a concrete root and environment. -/
theorem c9_witness :
    get_probs envW 3 emptyStore bW 2 = get_probs envW 3 emptyStore bW 2 :=
  c9_determinism envW 3 2 bW emptyStore emptyStore rfl rfl

/-! ### Claim C3 -/

/-- Claim C3: when the reward cached for the board's key is nonzero (the
reward being cached on first sight), or the board has no empty cell left,
`search` returns the negation of that reward and leaves every prior vector,
state visit count and edge record untouched. -/
theorem c3_terminal_no_mutation (env : Env) (fuel : Nat) (st : MCTSState)
    (s : Board)
    (h : cachedReward env st s ≠ 0 ∨ count_nonzero s = BOARD_SIZE) :
    ∃ st', search env (fuel + 1) st s
        = some (((-(cachedReward env st s) : Int) : ℚ), st') ∧
      st'.s_p = st.s_p ∧ st'.s_n = st.s_n ∧ st'.sa_q = st.sa_q ∧
      st'.sa_n = st.sa_n ∧ st'.s_valid_moves = st.s_valid_moves := by
  refine ⟨cacheReward env st s, ?_, by simp, by simp, by simp, by simp, by simp⟩
  rw [search_succ, searchStep_terminal env (search env fuel) st s h]

/-- Witness for claim C3: a concrete terminal board under `envW`. -/
theorem c3_witness :
    ∃ st', search envW 1 emptyStore [[2, 1]]
        = some (((-(cachedReward envW emptyStore [[2, 1]]) : Int) : ℚ), st') ∧
      st'.s_p = emptyStore.s_p ∧ st'.s_n = emptyStore.s_n ∧
      st'.sa_q = emptyStore.sa_q ∧ st'.sa_n = emptyStore.sa_n ∧
      st'.s_valid_moves = emptyStore.s_valid_moves :=
  c3_terminal_no_mutation envW 0 emptyStore [[2, 1]] (Or.inl (by decide))

/-! ### Claim C4 -/

theorem sum_map_div (l : List ℚ) (c : ℚ) :
    (l.map (fun x => x / c)).sum = l.sum / c := by
  induction l with
  | nil => simp
  | cons x xs ih => simp [ih, add_div]

theorem maskedPriors_illegal (probs : List ℚ) (valid : List Int) (i : Nat)
    (hi : i < BOARD_SIZE) (hmem : (i : Int) ∉ valid) :
    (maskedPriors probs valid)[i]? = some 0 := by
  unfold maskedPriors
  rw [List.getElem?_map, List.getElem?_range hi]
  simp [hmem]

theorem normalizedPriors_eq (env : Env) (s : Board) :
    normalizedPriors env s =
      (let masked := maskedPriors (env.predict s).1 (env.get_valid_actions_1d s)
       if masked.sum = 0 then
         List.replicate BOARD_SIZE ((1 : ℚ) / (BOARD_SIZE : ℚ))
       else if masked.sum ≠ 1 then masked.map (fun x => x / masked.sum)
       else masked) := rfl

theorem normalizedPriors_fallback (env : Env) (s : Board)
    (h : (maskedPriors (env.predict s).1 (env.get_valid_actions_1d s)).sum = 0) :
    normalizedPriors env s
      = List.replicate BOARD_SIZE ((1 : ℚ) / (BOARD_SIZE : ℚ)) := by
  rw [normalizedPriors_eq]
  simp only []
  rw [if_pos h]

theorem normalizedPriors_sum_one (env : Env) (s : Board)
    (h : (maskedPriors (env.predict s).1 (env.get_valid_actions_1d s)).sum ≠ 0) :
    (normalizedPriors env s).sum = 1 := by
  rw [normalizedPriors_eq]
  simp only []
  rw [if_neg h]
  by_cases h1 : (maskedPriors (env.predict s).1 (env.get_valid_actions_1d s)).sum = 1
  · rw [if_neg (by simp [h1])]
    exact h1
  · rw [if_pos h1, sum_map_div, div_self h]

theorem normalizedPriors_illegal (env : Env) (s : Board) (i : Nat)
    (hi : i < BOARD_SIZE) (hmem : (i : Int) ∉ env.get_valid_actions_1d s)
    (h : (maskedPriors (env.predict s).1 (env.get_valid_actions_1d s)).sum ≠ 0) :
    (normalizedPriors env s)[i]? = some 0 := by
  rw [normalizedPriors_eq]
  simp only []
  rw [if_neg h]
  by_cases h1 : (maskedPriors (env.predict s).1 (env.get_valid_actions_1d s)).sum ≠ 1
  · rw [if_pos h1, List.getElem?_map, maskedPriors_illegal _ _ i hi hmem]
    simp
  · rw [if_neg h1]
    exact maskedPriors_illegal _ _ i hi hmem

/-- Claim C4: at first expansion of a non-terminal state, the evaluator's
priors are masked to the oracle's legal actions; if the masked sum is zero
every one of the 225 stored entries becomes 1/225 and the degenerate-policy
warning is emitted, search continuing by returning the negated value;
otherwise the stored vector sums to 1 exactly (renormalized when the masked
sum differs from 1), keeps 0 on every illegal action, and no warning is
emitted. -/
theorem c4_expansion_normalization (env : Env) (fuel : Nat) (st : MCTSState)
    (s : Board)
    (hr : cachedReward env st s = 0) (hc : count_nonzero s ≠ BOARD_SIZE)
    (hp : lookup st.s_p s = none) :
    ∃ st',
      search env (fuel + 1) st s = some (-(env.predict s).2, st') ∧
      lookup st'.s_p s = some (normalizedPriors env s) ∧
      ((maskedPriors (env.predict s).1 (env.get_valid_actions_1d s)).sum = 0 →
        normalizedPriors env s
          = List.replicate BOARD_SIZE ((1 : ℚ) / (BOARD_SIZE : ℚ)) ∧
        st'.warned = true) ∧
      ((maskedPriors (env.predict s).1 (env.get_valid_actions_1d s)).sum ≠ 0 →
        (normalizedPriors env s).sum = 1 ∧
        (∀ i : Nat, i < BOARD_SIZE → (i : Int) ∉ env.get_valid_actions_1d s →
          (normalizedPriors env s)[i]? = some 0) ∧
        st'.warned = st.warned) := by
  refine ⟨expandState env (cacheReward env st s) s, ?_, ?_, ?_, ?_⟩
  · rw [search_succ, searchStep_expand env (search env fuel) st s hr hc hp]
  · simp [lookup]
  · intro h0
    exact ⟨normalizedPriors_fallback env s h0, by simp [h0]⟩
  · intro hne
    refine ⟨normalizedPriors_sum_one env s hne, ?_, by simp [hne]⟩
    intro i hi hmem
    exact normalizedPriors_illegal env s i hi hmem hne

/-- Witness for claim C4 at the concrete root `bW` under `envW` (masked sum
nonzero there, so the renormalization side is exercised). -/
theorem c4_witness :
    ∃ st',
      search envW 1 emptyStore bW = some (-(envW.predict bW).2, st') ∧
      lookup st'.s_p bW = some (normalizedPriors envW bW) ∧
      ((maskedPriors (envW.predict bW).1 (envW.get_valid_actions_1d bW)).sum = 0 →
        normalizedPriors envW bW
          = List.replicate BOARD_SIZE ((1 : ℚ) / (BOARD_SIZE : ℚ)) ∧
        st'.warned = true) ∧
      ((maskedPriors (envW.predict bW).1 (envW.get_valid_actions_1d bW)).sum ≠ 0 →
        (normalizedPriors envW bW).sum = 1 ∧
        (∀ i : Nat, i < BOARD_SIZE → (i : Int) ∉ envW.get_valid_actions_1d bW →
          (normalizedPriors envW bW)[i]? = some 0) ∧
        st'.warned = emptyStore.warned) :=
  c4_expansion_normalization envW 0 emptyStore bW (by decide) (by decide) rfl

/-! ### Claim C5 -/

theorem selGo (score : Int → ℚ) (xs : List Int) :
    ∀ c : Int, ∃ d,
      xs.foldl (selStep score) (some (score c), c) = (some (score d), d) ∧
      ((d = c ∧ ∀ x ∈ xs, score x ≤ score c) ∨
       (score c < score d ∧ ∃ l1 l2, xs = l1 ++ d :: l2 ∧
         (∀ x ∈ l1, score x < score d) ∧ ∀ x ∈ l2, score x ≤ score d)) := by
  induction xs with
  | nil => exact fun c => ⟨c, rfl, Or.inl ⟨rfl, by simp⟩⟩
  | cons x rest ih =>
    intro c
    rw [List.foldl_cons]
    by_cases hgt : score x > score c
    · rw [show selStep score (some (score c), c) x = (some (score x), x) from by
        simp [selStep, hgt]]
      obtain ⟨d, hfold, hcase⟩ := ih x
      refine ⟨d, hfold, ?_⟩
      rcases hcase with ⟨hdx, hall⟩ | ⟨hlt, l1, l2, heq, h1, h2⟩
      · subst hdx
        exact Or.inr ⟨hgt, [], rest, rfl, by simp, hall⟩
      · refine Or.inr ⟨lt_trans hgt hlt, x :: l1, l2, by rw [heq]; rfl, ?_, h2⟩
        intro y hy
        rcases List.mem_cons.mp hy with hy | hy
        · subst hy; exact hlt
        · exact h1 y hy
    · rw [show selStep score (some (score c), c) x = (some (score c), c) from by
        simp [selStep, hgt]]
      obtain ⟨d, hfold, hcase⟩ := ih c
      refine ⟨d, hfold, ?_⟩
      rcases hcase with ⟨hdc, hall⟩ | ⟨hlt, l1, l2, heq, h1, h2⟩
      · refine Or.inl ⟨hdc, ?_⟩
        intro y hy
        rcases List.mem_cons.mp hy with hy | hy
        · subst hy; exact le_of_not_lt hgt
        · exact hall y hy
      · refine Or.inr ⟨hlt, x :: l1, l2, by rw [heq]; rfl, ?_, h2⟩
        intro y hy
        rcases List.mem_cons.mp hy with hy | hy
        · subst hy; exact lt_of_le_of_lt (le_of_not_lt hgt) hlt
        · exact h1 y hy

/-- On a nonempty action list the selection loop yields the first action
attaining the strict maximum of the score. -/
theorem selectAction_firstArgmax (score : Int → ℚ) (l : List Int) (hl : l ≠ []) :
    firstArgmax score l (selectAction score l) := by
  cases l with
  | nil => exact absurd rfl hl
  | cons x xs =>
    unfold selectAction
    rw [List.foldl_cons,
      show selStep score ((none : Option ℚ), (-1 : Int)) x
        = (some (score x), x) from rfl]
    obtain ⟨d, hfold, hcase⟩ := selGo score xs x
    rw [hfold]
    show firstArgmax score (x :: xs) d
    rcases hcase with ⟨hdx, hall⟩ | ⟨hlt, l1, l2, heq, h1, h2⟩
    · subst hdx
      exact ⟨[], xs, rfl, by simp, hall⟩
    · refine ⟨x :: l1, l2, by rw [heq, List.cons_append], ?_, h2⟩
      intro y hy
      rcases List.mem_cons.mp hy with hy | hy
      · subst hy; exact hlt
      · exact h1 y hy

/-- A membership corollary of the selection characterization. -/
theorem selectAction_mem (score : Int → ℚ) (l : List Int) (hl : l ≠ []) :
    selectAction score l ∈ l := by
  obtain ⟨l1, l2, heq, -, -⟩ := selectAction_firstArgmax score l hl
  have hmem : selectAction score l ∈ l1 ++ selectAction score l :: l2 :=
    List.mem_append.mpr (Or.inr (List.mem_cons_self _ _))
  rw [← heq] at hmem
  exact hmem

/-- Claim C5: at an internal non-terminal node, `search` scores each stored
legal action by `Q + c_puct * P * sqrt(N_s) / (1 + N_sa)` when the edge
exists and by `c_puct * P * sqrt(N_s + EPS)` (no Q term) otherwise, with
`c_puct = 5`, and recurses on the first action attaining the strictly
greatest score in the stored oracle order. -/
theorem c5_puct_selection (env : Env) (fuel : Nat) (st : MCTSState) (s : Board)
    (p : List ℚ) (valid : List Int) (ns : Nat)
    (hr : cachedReward env st s = 0) (hc : count_nonzero s ≠ BOARD_SIZE)
    (hp : lookup st.s_p s = some p)
    (hvm : lookup st.s_valid_moves s = some valid)
    (hn : lookup st.s_n s = some ns)
    (hvne : valid ≠ []) :
    c_puct = 5 ∧
    (∀ a q, lookup st.sa_q (s, a) = some q →
      puctScore env (cacheReward env st s) s p ns a
        = q + c_puct * (pyGet p a).getD 0 * env.sqrtQ (ns : ℚ)
            / (1 + (((lookup st.sa_n (s, a)).getD 0 : Nat) : ℚ))) ∧
    (∀ a, lookup st.sa_q (s, a) = none →
      puctScore env (cacheReward env st s) s p ns a
        = c_puct * (pyGet p a).getD 0 * env.sqrtQ ((ns : ℚ) + EPS)) ∧
    firstArgmax (puctScore env (cacheReward env st s) s p ns) valid
      (selectAction (puctScore env (cacheReward env st s) s p ns) valid) ∧
    search env (fuel + 1) st s =
      (match setCell (convert_perspective s)
          (index_to_pos (selectAction
            (puctScore env (cacheReward env st s) s p ns) valid)) 2 with
       | none => none
       | some next_s =>
         match search env fuel (cacheReward env st s) next_s with
         | none => none
         | some (value, st4) =>
           match backup st4 s
               (selectAction (puctScore env (cacheReward env st s) s p ns) valid)
               value with
           | none => none
           | some st5 => some (-value, st5)) := by
  refine ⟨rfl, ?_, ?_, selectAction_firstArgmax _ valid hvne, ?_⟩
  · intro a q hq
    unfold puctScore
    simp only [cacheReward_sa_q, cacheReward_sa_n]
    rw [hq]
  · intro a hq
    unfold puctScore
    simp only [cacheReward_sa_q]
    rw [hq]
  · rw [search_succ]
    exact searchStep_select env (search env fuel) st s p valid ns hr hc hp hvm hn

/-- Witness for claim C5 at the concrete expanded store `stC5`. -/
theorem c5_witness :
    c_puct = 5 ∧
    (∀ a q, lookup stC5.sa_q (bW, a) = some q →
      puctScore envW (cacheReward envW stC5 bW) bW (List.replicate BOARD_SIZE 1) 4 a
        = q + c_puct * (pyGet (List.replicate BOARD_SIZE 1) a).getD 0
            * envW.sqrtQ (4 : ℚ)
            / (1 + (((lookup stC5.sa_n (bW, a)).getD 0 : Nat) : ℚ))) ∧
    (∀ a, lookup stC5.sa_q (bW, a) = none →
      puctScore envW (cacheReward envW stC5 bW) bW (List.replicate BOARD_SIZE 1) 4 a
        = c_puct * (pyGet (List.replicate BOARD_SIZE 1) a).getD 0
            * envW.sqrtQ ((4 : ℚ) + EPS)) ∧
    firstArgmax
      (puctScore envW (cacheReward envW stC5 bW) bW (List.replicate BOARD_SIZE 1) 4)
      [1]
      (selectAction
        (puctScore envW (cacheReward envW stC5 bW) bW (List.replicate BOARD_SIZE 1) 4)
        [1]) ∧
    search envW (1 + 1) stC5 bW =
      (match setCell (convert_perspective bW)
          (index_to_pos (selectAction
            (puctScore envW (cacheReward envW stC5 bW) bW
              (List.replicate BOARD_SIZE 1) 4) [1])) 2 with
       | none => none
       | some next_s =>
         match search envW 1 (cacheReward envW stC5 bW) next_s with
         | none => none
         | some (value, st4) =>
           match backup st4 bW
               (selectAction
                 (puctScore envW (cacheReward envW stC5 bW) bW
                   (List.replicate BOARD_SIZE 1) 4) [1])
               value with
           | none => none
           | some st5 => some (-value, st5)) :=
  c5_puct_selection envW 1 stC5 bW (List.replicate BOARD_SIZE 1) [1] 4
    (by decide) (by decide) rfl rfl rfl (by decide)

/-! ### Claim C6 -/

theorem backup_existing (st : MCTSState) (s : Board) (a : Int) (v : ℚ)
    (q : ℚ) (n k : Nat)
    (hq : lookup st.sa_q (s, a) = some q) (hn : lookup st.sa_n (s, a) = some n)
    (hk : lookup st.s_n s = some k) :
    backup st s a v = some
      { st with
        sa_q := ((s, a), ((n : ℚ) * q + v) / ((n : ℚ) + 1)) :: st.sa_q,
        sa_n := ((s, a), n + 1) :: st.sa_n,
        s_n := (s, k + 1) :: st.s_n } := by
  unfold backup
  rw [hq, hn]
  dsimp only
  rw [hk]

theorem backup_new (st : MCTSState) (s : Board) (a : Int) (v : ℚ) (k : Nat)
    (hq : lookup st.sa_q (s, a) = none) (hk : lookup st.s_n s = some k) :
    backup st s a v = some
      { st with
        sa_q := ((s, a), v) :: st.sa_q,
        sa_n := ((s, a), 1) :: st.sa_n,
        s_n := (s, k + 1) :: st.s_n } := by
  unfold backup
  rw [hq]
  dsimp only
  rw [hk]

/-- Claim C6: after the recursive call returns `v`, an existing edge's mean
becomes `(n * q + v) / (n + 1)` and its visit count `n + 1`; an absent edge is
created with mean `v` and one visit; the state visit count is incremented;
and in the selection branch `search` then returns `-v` with the backed-up
store. -/
theorem c6_backup_update (st : MCTSState) (s : Board) (a : Int) (v : ℚ) :
    (∀ q n k, lookup st.sa_q (s, a) = some q → lookup st.sa_n (s, a) = some n →
      lookup st.s_n s = some k →
      ∃ st', backup st s a v = some st' ∧
        lookup st'.sa_q (s, a) = some (((n : ℚ) * q + v) / ((n : ℚ) + 1)) ∧
        lookup st'.sa_n (s, a) = some (n + 1) ∧
        lookup st'.s_n s = some (k + 1)) ∧
    (∀ k, lookup st.sa_q (s, a) = none → lookup st.s_n s = some k →
      ∃ st', backup st s a v = some st' ∧
        lookup st'.sa_q (s, a) = some v ∧
        lookup st'.sa_n (s, a) = some 1 ∧
        lookup st'.s_n s = some (k + 1)) ∧
    (∀ (env : Env) (fuel : Nat) (st0 : MCTSState) (p : List ℚ)
        (valid : List Int) (ns : Nat) (next_s : Board) (st5 : MCTSState),
      cachedReward env st0 s = 0 → count_nonzero s ≠ BOARD_SIZE →
      lookup st0.s_p s = some p → lookup st0.s_valid_moves s = some valid →
      lookup st0.s_n s = some ns →
      selectAction (puctScore env (cacheReward env st0 s) s p ns) valid = a →
      setCell (convert_perspective s) (index_to_pos a) 2 = some next_s →
      search env fuel (cacheReward env st0 s) next_s = some (v, st) →
      backup st s a v = some st5 →
      search env (fuel + 1) st0 s = some (-v, st5)) := by
  refine ⟨?_, ?_, ?_⟩
  · intro q n k hq hn hk
    exact ⟨_, backup_existing st s a v q n k hq hn hk,
      by simp [lookup], by simp [lookup], by simp [lookup]⟩
  · intro k hq hk
    exact ⟨_, backup_new st s a v k hq hk,
      by simp [lookup], by simp [lookup], by simp [lookup]⟩
  · intro env fuel st0 p valid ns next_s st5 h0 hcc hp hvm hn hsel hset hrec hback
    rw [search_succ,
      searchStep_select env (search env fuel) st0 s p valid ns h0 hcc hp hvm hn,
      hsel, hset]
    dsimp only
    rw [hrec]
    dsimp only
    rw [hback]

/-- Witness for claim C6: backing up value 1 through the concrete visited
edge of `stC5`. -/
theorem c6_witness :
    ∃ st', backup stC5 bW 1 1 = some st' ∧
      lookup st'.sa_q (bW, 1)
        = some ((((3 : Nat) : ℚ) * (1/2) + 1) / (((3 : Nat) : ℚ) + 1)) ∧
      lookup st'.sa_n (bW, 1) = some (3 + 1) ∧
      lookup st'.s_n bW = some (4 + 1) :=
  (c6_backup_update stC5 bW 1 1).1 (1/2) 3 4 rfl rfl rfl

/-! ### Claim C7 -/

theorem searchStep_no_vm (env : Env)
    (rec : MCTSState → Board → Option (ℚ × MCTSState)) (st : MCTSState)
    (s : Board) (p : List ℚ)
    (hr : cachedReward env st s = 0) (hc : count_nonzero s ≠ BOARD_SIZE)
    (hp : lookup st.s_p s = some p)
    (hvm : lookup st.s_valid_moves s = none) :
    searchStep env rec st s = none := by
  unfold searchStep
  simp only [lookup_cacheReward_self, Option.getD_some, cacheReward_s_p,
    cacheReward_s_valid_moves, cacheReward_s_n]
  rw [if_neg (by simp [hr, hc]), hp]
  cases hn : lookup st.s_n s with
  | none => rw [hvm]
  | some ns => rw [hvm]

theorem searchStep_no_sn (env : Env)
    (rec : MCTSState → Board → Option (ℚ × MCTSState)) (st : MCTSState)
    (s : Board) (p : List ℚ) (valid : List Int)
    (hr : cachedReward env st s = 0) (hc : count_nonzero s ≠ BOARD_SIZE)
    (hp : lookup st.s_p s = some p)
    (hvm : lookup st.s_valid_moves s = some valid)
    (hn : lookup st.s_n s = none) :
    searchStep env rec st s = none := by
  unfold searchStep
  simp only [lookup_cacheReward_self, Option.getD_some, cacheReward_s_p,
    cacheReward_s_valid_moves, cacheReward_s_n]
  rw [if_neg (by simp [hr, hc]), hp, hvm, hn]

/-- Inversion of `backup`: the structure of the updated store. -/
theorem backup_some_inv (st : MCTSState) (s : Board) (a : Int) (v : ℚ)
    (st' : MCTSState) (h : backup st s a v = some st') :
    st'.s_r = st.s_r ∧ st'.s_p = st.s_p ∧
    st'.s_valid_moves = st.s_valid_moves ∧ st'.warned = st.warned ∧
    ∃ qnew nnew, st'.sa_q = ((s, a), qnew) :: st.sa_q ∧
      st'.sa_n = ((s, a), nnew) :: st.sa_n ∧
      ((qnew = v ∧ nnew = 1 ∧ lookup st.sa_q (s, a) = none) ∨
       (∃ q n, lookup st.sa_q (s, a) = some q ∧
         lookup st.sa_n (s, a) = some n ∧
         qnew = ((n : ℚ) * q + v) / ((n : ℚ) + 1) ∧ nnew = n + 1)) ∧
      ∃ k, lookup st.s_n s = some k ∧ st'.s_n = (s, k + 1) :: st.s_n := by
  unfold backup at h
  cases hq : lookup st.sa_q (s, a) with
  | none =>
    rw [hq] at h
    dsimp only at h
    cases hk : lookup st.s_n s with
    | none => rw [hk] at h; exact absurd h (by simp)
    | some k =>
      rw [hk] at h
      have h' := (Option.some.inj h).symm
      subst h'
      exact ⟨rfl, rfl, rfl, rfl, v, 1, rfl, rfl, Or.inl ⟨rfl, rfl, rfl⟩, ⟨k, rfl, rfl⟩⟩
  | some q =>
    rw [hq] at h
    cases hn : lookup st.sa_n (s, a) with
    | none => rw [hn] at h; exact absurd h (by simp)
    | some n =>
      rw [hn] at h
      dsimp only at h
      cases hk : lookup st.s_n s with
      | none => rw [hk] at h; exact absurd h (by simp)
      | some k =>
        rw [hk] at h
        have h' := (Option.some.inj h).symm
        subst h'
        exact ⟨rfl, rfl, rfl, rfl, _, n + 1, rfl, rfl,
          Or.inr ⟨q, n, rfl, rfl, rfl, rfl⟩, ⟨k, rfl, rfl⟩⟩

theorem convex_bound (n : Nat) (q v : ℚ) (hq : -1 ≤ q ∧ q ≤ 1)
    (hv : -1 ≤ v ∧ v ≤ 1) :
    -1 ≤ ((n : ℚ) * q + v) / ((n : ℚ) + 1) ∧
      ((n : ℚ) * q + v) / ((n : ℚ) + 1) ≤ 1 := by
  have hn0 : (0 : ℚ) ≤ (n : ℚ) := Nat.cast_nonneg n
  have hn : (0 : ℚ) < (n : ℚ) + 1 := by linarith
  constructor
  · rw [le_div_iff₀ hn]
    nlinarith [hq.1, hq.2, hv.1, hv.2]
  · rw [div_le_one hn]
    nlinarith [hq.1, hq.2, hv.1, hv.2]

theorem boundedStore_cacheReward (env : Env) (st : MCTSState) (s : Board)
    (hrew : ∀ b, env.get_reward b = -1 ∨ env.get_reward b = 0 ∨
      env.get_reward b = 1)
    (hb : BoundedStore st) : BoundedStore (cacheReward env st s) := by
  constructor
  · intro k q hq
    rw [cacheReward_sa_q] at hq
    exact hb.1 k q hq
  · intro b r hr
    rcases lookup_cacheReward_s_r env st s b r hr with h | ⟨_, hr'⟩
    · exact hb.2 b r h
    · rw [hr']
      exact hrew s

theorem cachedReward_mem (env : Env) (st : MCTSState) (s : Board)
    (hrew : ∀ b, env.get_reward b = -1 ∨ env.get_reward b = 0 ∨
      env.get_reward b = 1)
    (hb : BoundedStore st) :
    cachedReward env st s = -1 ∨ cachedReward env st s = 0 ∨
      cachedReward env st s = 1 := by
  unfold cachedReward
  cases hsr : lookup st.s_r s with
  | none => simpa using hrew s
  | some r => simpa using hb.2 s r hsr

/-- Claim C7: if the evaluator's value estimates lie in [-1,1] and rewards in
{-1,0,1}, then every stored edge mean stays in [-1,1] across any sequence of
`search` calls (each backup is a convex combination of bounded values), and
every value `search` returns lies in [-1,1] as well. -/
theorem c7_mean_value_bounded (env : Env)
    (hv : ∀ b, -1 ≤ (env.predict b).2 ∧ (env.predict b).2 ≤ 1)
    (hrew : ∀ b, env.get_reward b = -1 ∨ env.get_reward b = 0 ∨
      env.get_reward b = 1) :
    ∀ (fuel : Nat) (st : MCTSState) (s : Board) (v : ℚ) (st' : MCTSState),
      BoundedStore st → search env fuel st s = some (v, st') →
      BoundedStore st' ∧ -1 ≤ v ∧ v ≤ 1 := by
  intro fuel
  induction fuel with
  | zero => intro st s v st' _ h; exact absurd h (by simp [search])
  | succ fuel ih =>
    intro st s v st' hb h
    rw [search_succ] at h
    by_cases hterm : cachedReward env st s ≠ 0 ∨ count_nonzero s = BOARD_SIZE
    · rw [searchStep_terminal env (search env fuel) st s hterm] at h
      have h' := Option.some.inj h
      rw [Prod.mk.injEq] at h'
      obtain ⟨hv', hst'⟩ := h'
      refine ⟨?_, ?_⟩
      · rw [← hst']
        exact boundedStore_cacheReward env st s hrew hb
      · rw [← hv']
        rcases cachedReward_mem env st s hrew hb with h3 | h3 | h3 <;>
          rw [h3] <;> norm_num
    · push_neg at hterm
      obtain ⟨h0, hcc⟩ := hterm
      cases hp : lookup st.s_p s with
      | none =>
        rw [searchStep_expand env (search env fuel) st s h0 hcc hp] at h
        have h' := Option.some.inj h
        rw [Prod.mk.injEq] at h'
        obtain ⟨hv', hst'⟩ := h'
        have hbc := boundedStore_cacheReward env st s hrew hb
        refine ⟨?_, ?_⟩
        · rw [← hst']
          exact ⟨fun k q hq => hb.1 k q
              (by rwa [expandState_sa_q, cacheReward_sa_q] at hq),
            fun b r hr => hbc.2 b r (by rwa [expandState_s_r] at hr)⟩
        · rw [← hv']
          have hvb := hv s
          constructor <;> linarith [hvb.1, hvb.2]
      | some p =>
        cases hvm : lookup st.s_valid_moves s with
        | none =>
          rw [searchStep_no_vm env (search env fuel) st s p h0 hcc hp hvm] at h
          exact absurd h (by simp)
        | some valid =>
          cases hn : lookup st.s_n s with
          | none =>
            rw [searchStep_no_sn env (search env fuel) st s p valid
              h0 hcc hp hvm hn] at h
            exact absurd h (by simp)
          | some ns =>
            rw [searchStep_select env (search env fuel) st s p valid ns
              h0 hcc hp hvm hn] at h
            cases hset : setCell (convert_perspective s)
                (index_to_pos (selectAction
                  (puctScore env (cacheReward env st s) s p ns) valid)) 2 with
            | none => rw [hset] at h; exact absurd h (by simp)
            | some nx =>
              rw [hset] at h
              dsimp only at h
              cases hrec : search env fuel (cacheReward env st s) nx with
              | none => rw [hrec] at h; exact absurd h (by simp)
              | some pr =>
                obtain ⟨value, st4⟩ := pr
                rw [hrec] at h
                dsimp only at h
                obtain ⟨hb4, hvl, hvr⟩ := ih (cacheReward env st s) nx value st4
                  (boundedStore_cacheReward env st s hrew hb) hrec
                cases hback : backup st4 s
                    (selectAction (puctScore env (cacheReward env st s) s p ns)
                      valid) value with
                | none => rw [hback] at h; exact absurd h (by simp)
                | some st5 =>
                  rw [hback] at h
                  have h' := Option.some.inj h
                  rw [Prod.mk.injEq] at h'
                  obtain ⟨hv', hst'⟩ := h'
                  refine ⟨?_, ?_⟩
                  · rw [← hst']
                    obtain ⟨hsr, _, _, _, qnew, nnew, hq5, _, hqcase, k, hk, _⟩ :=
                      backup_some_inv st4 s _ value st5 hback
                    constructor
                    · intro kk qq hqq
                      rw [hq5, lookup_cons] at hqq
                      split at hqq
                      · obtain rfl := Option.some.inj hqq
                        rcases hqcase with ⟨rfl, -, -⟩ | ⟨q, n, hoq, -, rfl, -⟩
                        · exact ⟨hvl, hvr⟩
                        · exact convex_bound n q value (hb4.1 _ _ hoq) ⟨hvl, hvr⟩
                      · exact hb4.1 kk qq hqq
                    · intro b r hr
                      rw [hsr] at hr
                      exact hb4.2 b r hr
                  · rw [← hv']
                    constructor <;> linarith

/-- Witness for claim C7: a concrete two-playout-depth run under `envW`. -/
theorem c7_witness :
    ∃ v st', search envW 2 stC5 bW = some (v, st') ∧ -1 ≤ v ∧ v ≤ 1 := by
  have hsome : (search envW 2 stC5 bW).isSome = true := by decide
  obtain ⟨pr, hrun⟩ := Option.isSome_iff_exists.mp hsome
  obtain ⟨v, st'⟩ := pr
  have hb : BoundedStore stC5 := by
    constructor
    · intro k q hq
      rw [show stC5.sa_q = [((bW, 1), 1/2)] from rfl, lookup_cons] at hq
      split at hq
      · obtain rfl := Option.some.inj hq
        norm_num
      · exact absurd hq (by simp [lookup])
    · intro b r hr
      rw [show stC5.s_r = [(bW, 0)] from rfl, lookup_cons] at hr
      split at hr
      · obtain rfl := Option.some.inj hr
        norm_num
      · exact absurd hr (by simp [lookup])
  have hval : ∀ b, -1 ≤ (envW.predict b).2 ∧ (envW.predict b).2 ≤ 1 := by
    intro b
    norm_num [envW]
  have hrew : ∀ b, envW.get_reward b = -1 ∨ envW.get_reward b = 0 ∨
      envW.get_reward b = 1 := by
    intro b
    by_cases hbb : b = bW <;> simp [envW, hbb]
  obtain ⟨-, hvl, hvr⟩ :=
    c7_mean_value_bounded envW hval hrew 2 stC5 bW v st' hb hrun
  exact ⟨v, st', hrun, hvl, hvr⟩

/-! ### Claim C1 (corrected): groundwork -/

theorem getCell_convert (b : Board) (pos : Int × Int) :
    getCell (convert_perspective b) pos = (getCell b pos).map cellFlip := by
  unfold getCell convert_perspective
  rw [List.length_map]
  cases h1 : pyIdx b.length pos.1 with
  | none => rfl
  | some ri =>
    dsimp only
    rw [List.getElem?_map]
    cases h2 : b[ri]? with
    | none => rfl
    | some row =>
      rw [Option.map_some']
      dsimp only
      rw [List.length_map]
      cases h3 : pyIdx row.length pos.2 with
      | none => rfl
      | some ci =>
        dsimp only
        rw [List.getElem?_map]

theorem countP_set_row (row : List Int) : ∀ ci, row[ci]? = some 0 →
    (row.set ci 2).countP (fun n => decide (n ≠ 0))
      = row.countP (fun n => decide (n ≠ 0)) + 1 := by
  induction row with
  | nil => intro ci h; simp at h
  | cons x xs ih =>
    intro ci h
    cases ci with
    | zero =>
      rw [List.getElem?_cons_zero] at h
      obtain rfl := Option.some.inj h.symm
      simp [List.set, List.countP_cons]
    | succ ci =>
      rw [List.getElem?_cons_succ] at h
      rw [List.set_cons_succ, List.countP_cons, List.countP_cons, ih ci h]
      omega

theorem countP_flatten_set (b : Board) : ∀ (ri : Nat) (row row' : List Int),
    b[ri]? = some row →
    (b.set ri row').flatten.countP (fun n => decide (n ≠ 0))
        + row.countP (fun n => decide (n ≠ 0))
      = b.flatten.countP (fun n => decide (n ≠ 0))
        + row'.countP (fun n => decide (n ≠ 0)) := by
  induction b with
  | nil => intro ri row row' h; simp at h
  | cons r0 rest ih =>
    intro ri row row' h
    cases ri with
    | zero =>
      rw [List.getElem?_cons_zero] at h
      obtain rfl := Option.some.inj h.symm
      rw [List.set_cons_zero, List.flatten_cons, List.flatten_cons,
        List.countP_append, List.countP_append]
      omega
    | succ ri =>
      rw [List.getElem?_cons_succ] at h
      rw [List.set_cons_succ, List.flatten_cons, List.flatten_cons,
        List.countP_append, List.countP_append]
      have := ih ri row row' h
      omega

theorem setCell_zero_count (b : Board) (pos : Int × Int)
    (h : getCell b pos = some 0) :
    ∃ b', setCell b pos 2 = some b' ∧
      count_nonzero b' = count_nonzero b + 1 := by
  unfold getCell at h
  cases h1 : pyIdx b.length pos.1 with
  | none => rw [h1] at h; exact absurd h (by simp)
  | some ri =>
    rw [h1] at h
    dsimp only at h
    cases h2 : b[ri]? with
    | none => rw [h2] at h; exact absurd h (by simp)
    | some row =>
      rw [h2] at h
      dsimp only at h
      cases h3 : pyIdx row.length pos.2 with
      | none => rw [h3] at h; exact absurd h (by simp)
      | some ci =>
        rw [h3] at h
        dsimp only at h
        refine ⟨b.set ri (row.set ci 2), ?_, ?_⟩
        · unfold setCell
          rw [h1]
          dsimp only
          rw [h2]
          dsimp only
          rw [h3]
        · unfold count_nonzero
          have hrow := countP_set_row row ci h
          have hb := countP_flatten_set b ri row (row.set ci 2) h2
          omega

theorem sum_range_update (f g : Nat → Nat) (j : Nat)
    (hne : ∀ i, i ≠ j → g i = f i) (hup : g j = f j + 1) :
    ∀ n, j < n →
      ((List.range n).map g).sum = ((List.range n).map f).sum + 1 := by
  intro n
  induction n with
  | zero => intro hj; exact absurd hj (Nat.not_lt_zero j)
  | succ n ih =>
    intro hj
    rw [List.range_succ, List.map_append, List.map_append,
      List.sum_append, List.sum_append]
    by_cases hjn : j = n
    · subst hjn
      have hmap : (List.range j).map g = (List.range j).map f := by
        apply List.map_congr_left
        intro i hi
        exact hne i (by have := List.mem_range.mp hi; omega)
      rw [hmap]
      simp only [List.map_cons, List.map_nil, List.sum_cons, List.sum_nil, hup]
      omega
    · have hgn : g n = f n := hne n (Ne.symm hjn)
      rw [ih (by omega)]
      simp only [List.map_cons, List.map_nil, List.sum_cons, List.sum_nil, hgn]
      omega

theorem cachedReward_zero_of (env : Env) (st : MCTSState) (s : Board)
    (hco : Coherent env st) (hr : env.get_reward s = 0) :
    cachedReward env st s = 0 := by
  unfold cachedReward
  cases hsr : lookup st.s_r s with
  | none => simpa using hr
  | some r => simpa using (hco.r_cache s r hsr).trans hr

theorem reward_zero_of_cachedReward (env : Env) (st : MCTSState) (s : Board)
    (hco : Coherent env st) (h : cachedReward env st s = 0) :
    env.get_reward s = 0 := by
  unfold cachedReward at h
  cases hsr : lookup st.s_r s with
  | none => rw [hsr] at h; simpa using h
  | some r =>
    rw [hsr] at h
    simp only [Option.getD_some] at h
    rw [← hco.r_cache s r hsr]
    exact h

theorem coherent_empty (env : Env) : Coherent env emptyStore := by
  constructor
  · intro b r h; exact absurd h (by simp [emptyStore, lookup])
  · intro b l h; exact absurd h (by simp [emptyStore, lookup])
  · intro b p h; exact absurd h (by simp [emptyStore, lookup])
  · intro b h; exact absurd h (by simp [emptyStore, lookup])
  · intro b h; exact absurd h (by simp [emptyStore, lookup])
  · intro k; simp [emptyStore, lookup]

theorem coherent_cacheReward (env : Env) (st : MCTSState) (s : Board)
    (hco : Coherent env st) : Coherent env (cacheReward env st s) := by
  constructor
  · intro b r hr
    rcases lookup_cacheReward_s_r env st s b r hr with h | ⟨hb, hr'⟩
    · exact hco.r_cache b r h
    · rw [hr', hb]
  · intro b l hl
    exact hco.vm_cache b l (by rwa [cacheReward_s_valid_moves] at hl)
  · intro b p hp
    exact hco.p_nonterm b p (by rwa [cacheReward_s_p] at hp)
  · intro b hb
    rw [cacheReward_s_p] at hb
    rw [cacheReward_s_valid_moves]
    exact hco.p_vm b hb
  · intro b hb
    rw [cacheReward_s_p] at hb
    rw [cacheReward_s_n]
    exact hco.p_n b hb
  · intro k
    rw [cacheReward_sa_q, cacheReward_sa_n]
    exact hco.qn_dom k

theorem coherent_expand (env : Env) (st : MCTSState) (s : Board)
    (hco : Coherent env st)
    (hr0 : env.get_reward s = 0) (hcc : count_nonzero s ≠ BOARD_SIZE) :
    Coherent env (expandState env st s) := by
  constructor
  · intro b r hr
    exact hco.r_cache b r (by rwa [expandState_s_r] at hr)
  · intro b l hl
    rw [expandState_s_valid_moves, lookup_cons] at hl
    by_cases hbs : b = s
    · rw [if_pos hbs] at hl
      rw [hbs]
      exact (Option.some.inj hl).symm
    · rw [if_neg hbs] at hl
      exact hco.vm_cache b l hl
  · intro b p hp
    rw [expandState_s_p, lookup_cons] at hp
    by_cases hbs : b = s
    · rw [hbs]
      exact ⟨hr0, hcc⟩
    · rw [if_neg hbs] at hp
      exact hco.p_nonterm b p hp
  · intro b hb
    rw [expandState_s_p, lookup_cons] at hb
    rw [expandState_s_valid_moves, lookup_cons]
    by_cases hbs : b = s
    · rw [if_pos hbs]; rfl
    · rw [if_neg hbs] at hb
      rw [if_neg hbs]
      exact hco.p_vm b hb
  · intro b hb
    rw [expandState_s_p, lookup_cons] at hb
    rw [expandState_s_n, lookup_cons]
    by_cases hbs : b = s
    · rw [if_pos hbs]; rfl
    · rw [if_neg hbs] at hb
      rw [if_neg hbs]
      exact hco.p_n b hb
  · intro k
    rw [expandState_sa_q, expandState_sa_n]
    exact hco.qn_dom k

/-- The effect of one `search` call under a coherent store and a good oracle:
coherence is preserved, every record keyed by a board with strictly fewer
stones than the searched board is untouched, and stored prior vectors never
change. -/
theorem search_effects (env : Env) (henv : goodEnv env) :
    ∀ (fuel : Nat) (st : MCTSState) (s : Board) (v : ℚ) (st' : MCTSState),
      Coherent env st → search env fuel st s = some (v, st') →
      Coherent env st' ∧
      (∀ b, count_nonzero b < count_nonzero s →
        (∀ a, lookup st'.sa_q (b, a) = lookup st.sa_q (b, a)) ∧
        (∀ a, lookup st'.sa_n (b, a) = lookup st.sa_n (b, a)) ∧
        lookup st'.s_p b = lookup st.s_p b ∧
        lookup st'.s_n b = lookup st.s_n b) ∧
      (∀ b pb, lookup st.s_p b = some pb → lookup st'.s_p b = some pb) := by
  intro fuel
  induction fuel with
  | zero => intro st s v st' _ h; exact absurd h (by simp [search])
  | succ fuel ih =>
    intro st s v st' hco h
    rw [search_succ] at h
    by_cases hterm : cachedReward env st s ≠ 0 ∨ count_nonzero s = BOARD_SIZE
    · rw [searchStep_terminal env (search env fuel) st s hterm] at h
      have h' := Option.some.inj h
      rw [Prod.mk.injEq] at h'
      obtain ⟨hv', hst'⟩ := h'
      rw [← hst']
      refine ⟨coherent_cacheReward env st s hco, ?_, ?_⟩
      · intro b hb
        rw [cacheReward_sa_q, cacheReward_sa_n, cacheReward_s_p, cacheReward_s_n]
        exact ⟨fun a => rfl, fun a => rfl, rfl, rfl⟩
      · intro b pb hpb
        rwa [cacheReward_s_p]
    · push_neg at hterm
      obtain ⟨h0, hcc⟩ := hterm
      have hrg : env.get_reward s = 0 := reward_zero_of_cachedReward env st s hco h0
      cases hp : lookup st.s_p s with
      | none =>
        rw [searchStep_expand env (search env fuel) st s h0 hcc hp] at h
        have h' := Option.some.inj h
        rw [Prod.mk.injEq] at h'
        obtain ⟨hv', hst'⟩ := h'
        rw [← hst']
        refine ⟨coherent_expand env (cacheReward env st s) s
            (coherent_cacheReward env st s hco) hrg hcc, ?_, ?_⟩
        · intro b hb
          have hbs : b ≠ s := fun hh => by rw [hh] at hb; omega
          rw [expandState_sa_q, expandState_sa_n, cacheReward_sa_q,
            cacheReward_sa_n]
          refine ⟨fun a => rfl, fun a => rfl, ?_, ?_⟩
          · rw [expandState_s_p, lookup_cons, if_neg hbs, cacheReward_s_p]
          · rw [expandState_s_n, lookup_cons, if_neg hbs, cacheReward_s_n]
        · intro b pb hpb
          have hbs : b ≠ s := fun hh => by rw [hh] at hpb; rw [hpb] at hp; cases hp
          rw [expandState_s_p, lookup_cons, if_neg hbs, cacheReward_s_p]
          exact hpb
      | some p =>
        cases hvm : lookup st.s_valid_moves s with
        | none =>
          rw [searchStep_no_vm env (search env fuel) st s p h0 hcc hp hvm] at h
          exact absurd h (by simp)
        | some valid =>
          cases hn : lookup st.s_n s with
          | none =>
            rw [searchStep_no_sn env (search env fuel) st s p valid
              h0 hcc hp hvm hn] at h
            exact absurd h (by simp)
          | some ns =>
            rw [searchStep_select env (search env fuel) st s p valid ns
              h0 hcc hp hvm hn] at h
            have hvalid_eq : valid = env.get_valid_actions_1d s :=
              hco.vm_cache s valid hvm
            have horc := henv s hrg hcc
            have hvne : valid ≠ [] := by rw [hvalid_eq]; exact horc.1
            have hmem : selectAction
                (puctScore env (cacheReward env st s) s p ns) valid ∈ valid :=
              selectAction_mem _ valid hvne
            have hga : goodAction s (selectAction
                (puctScore env (cacheReward env st s) s p ns) valid) := by
              apply horc.2
              rw [← hvalid_eq]
              exact hmem
            have hgc : getCell (convert_perspective s)
                (index_to_pos (selectAction
                  (puctScore env (cacheReward env st s) s p ns) valid))
                  = some 0 := by
              rw [getCell_convert, hga.2.2]
              rfl
            obtain ⟨nx, hset, hcnt⟩ :=
              setCell_zero_count (convert_perspective s) _ hgc
            rw [hset] at h
            dsimp only at h
            have hcnx : count_nonzero nx = count_nonzero s + 1 := by
              rw [hcnt, count_nonzero_convert]
            cases hrec : search env fuel (cacheReward env st s) nx with
            | none => rw [hrec] at h; exact absurd h (by simp)
            | some pr =>
              obtain ⟨value, st4⟩ := pr
              rw [hrec] at h
              dsimp only at h
              obtain ⟨hco4, hunt4, hmono4⟩ := ih (cacheReward env st s) nx
                value st4 (coherent_cacheReward env st s hco) hrec
              cases hback : backup st4 s (selectAction
                  (puctScore env (cacheReward env st s) s p ns) valid)
                  value with
              | none => rw [hback] at h; exact absurd h (by simp)
              | some st5 =>
                rw [hback] at h
                have h' := Option.some.inj h
                rw [Prod.mk.injEq] at h'
                obtain ⟨hv', hst'⟩ := h'
                rw [← hst']
                obtain ⟨hsr5, hsp5, hsvm5, hw5, qnew, nnew, hq5, hn5,
                  hqcase, k, hk, hsn5⟩ :=
                  backup_some_inv st4 s _ value st5 hback
                refine ⟨?_, ?_, ?_⟩
                · constructor
                  · intro b r hr; rw [hsr5] at hr; exact hco4.r_cache b r hr
                  · intro b l hl; rw [hsvm5] at hl; exact hco4.vm_cache b l hl
                  · intro b pb hpb
                    rw [hsp5] at hpb
                    exact hco4.p_nonterm b pb hpb
                  · intro b hb; rw [hsp5] at hb; rw [hsvm5]; exact hco4.p_vm b hb
                  · intro b hb
                    rw [hsp5] at hb
                    rw [hsn5, lookup_cons]
                    by_cases hbs : b = s
                    · rw [if_pos hbs]; rfl
                    · rw [if_neg hbs]; exact hco4.p_n b hb
                  · intro kk
                    rw [hq5, hn5, lookup_cons, lookup_cons]
                    by_cases hkk : kk = (s, selectAction
                        (puctScore env (cacheReward env st s) s p ns) valid)
                    · rw [if_pos hkk, if_pos hkk]; simp
                    · rw [if_neg hkk, if_neg hkk]; exact hco4.qn_dom kk
                · intro b hb
                  have hbs : b ≠ s := fun hh => by rw [hh] at hb; omega
                  have hblt : count_nonzero b < count_nonzero nx := by omega
                  obtain ⟨hu1, hu2, hu3, hu4⟩ := hunt4 b hblt
                  refine ⟨?_, ?_, ?_, ?_⟩
                  · intro a
                    rw [hq5, lookup_cons,
                      if_neg (fun hh => hbs (congrArg Prod.fst hh))]
                    rw [hu1 a, cacheReward_sa_q]
                  · intro a
                    rw [hn5, lookup_cons,
                      if_neg (fun hh => hbs (congrArg Prod.fst hh))]
                    rw [hu2 a, cacheReward_sa_n]
                  · rw [hsp5, hu3, cacheReward_s_p]
                  · rw [hsn5, lookup_cons, if_neg hbs, hu4, cacheReward_s_n]
                · intro b pb hpb
                  rw [hsp5]
                  apply hmono4
                  rw [cacheReward_s_p]
                  exact hpb

/-- Bumping one in-range edge count by one bumps the root edge-visit sum by
one. -/
theorem rootCountSum_update (stA stB : MCTSState) (s : Board) (j : Int)
    (h0 : 0 ≤ j) (hlt : j < (BOARD_SIZE : Int))
    (hne : ∀ a : Int, a ≠ j →
      lookup stB.sa_n (s, a) = lookup stA.sa_n (s, a))
    (hup : (lookup stB.sa_n (s, j)).getD 0
      = (lookup stA.sa_n (s, j)).getD 0 + 1) :
    rootCountSum stB s = rootCountSum stA s + 1 := by
  unfold rootCountSum rootCounts
  refine sum_range_update (fun i => (lookup stA.sa_n (s, (i : Int))).getD 0)
    (fun i => (lookup stB.sa_n (s, (i : Int))).getD 0) j.toNat ?_ ?_
    BOARD_SIZE ?_
  · intro i hi
    dsimp only
    rw [hne (i : Int) (by omega)]
  · dsimp only
    rw [Int.toNat_of_nonneg h0]
    exact hup
  · omega

theorem coherent_backup (env : Env) (st : MCTSState) (s : Board) (a : Int)
    (v : ℚ) (st' : MCTSState) (hco : Coherent env st)
    (h : backup st s a v = some st') : Coherent env st' := by
  obtain ⟨hsr, hsp, hsvm, hw, qnew, nnew, hq, hn, hqcase, k, hk, hsn⟩ :=
    backup_some_inv st s a v st' h
  constructor
  · intro b r hr; rw [hsr] at hr; exact hco.r_cache b r hr
  · intro b l hl; rw [hsvm] at hl; exact hco.vm_cache b l hl
  · intro b pb hpb; rw [hsp] at hpb; exact hco.p_nonterm b pb hpb
  · intro b hb; rw [hsp] at hb; rw [hsvm]; exact hco.p_vm b hb
  · intro b hb
    rw [hsp] at hb
    rw [hsn, lookup_cons]
    by_cases hbs : b = s
    · rw [if_pos hbs]; rfl
    · rw [if_neg hbs]; exact hco.p_n b hb
  · intro kk
    rw [hq, hn, lookup_cons, lookup_cons]
    by_cases hkk : kk = (s, a)
    · rw [if_pos hkk, if_pos hkk]; simp
    · rw [if_neg hkk, if_neg hkk]; exact hco.qn_dom kk

/-- A `search` call on an already-expanded (hence non-terminal) state under a
coherent store increments the state's root edge-visit sum by exactly one. -/
theorem search_selection_increments (env : Env) (henv : goodEnv env)
    (fuel : Nat) (st : MCTSState) (s : Board) (v : ℚ) (st' : MCTSState)
    (hco : Coherent env st) (hp : (lookup st.s_p s).isSome)
    (h : search env (fuel + 1) st s = some (v, st')) :
    rootCountSum st' s = rootCountSum st s + 1 ∧
      (lookup st'.s_p s).isSome ∧ Coherent env st' := by
  obtain ⟨p, hp'⟩ := Option.isSome_iff_exists.mp hp
  obtain ⟨hrg, hcc⟩ := hco.p_nonterm s p hp'
  have h0 : cachedReward env st s = 0 := cachedReward_zero_of env st s hco hrg
  obtain ⟨valid, hvm⟩ :=
    Option.isSome_iff_exists.mp (hco.p_vm s (by rw [hp']; rfl))
  obtain ⟨ns, hn⟩ := Option.isSome_iff_exists.mp (hco.p_n s (by rw [hp']; rfl))
  rw [search_succ, searchStep_select env (search env fuel) st s p valid ns
    h0 hcc hp' hvm hn] at h
  have hvalid_eq : valid = env.get_valid_actions_1d s := hco.vm_cache s valid hvm
  have horc := henv s hrg hcc
  have hvne : valid ≠ [] := by rw [hvalid_eq]; exact horc.1
  have hmem := selectAction_mem
    (puctScore env (cacheReward env st s) s p ns) valid hvne
  have hga : goodAction s (selectAction
      (puctScore env (cacheReward env st s) s p ns) valid) := by
    apply horc.2
    rw [← hvalid_eq]
    exact hmem
  have hgc : getCell (convert_perspective s)
      (index_to_pos (selectAction
        (puctScore env (cacheReward env st s) s p ns) valid)) = some 0 := by
    rw [getCell_convert, hga.2.2]
    rfl
  obtain ⟨nx, hset, hcnt⟩ := setCell_zero_count (convert_perspective s) _ hgc
  rw [hset] at h
  dsimp only at h
  have hcnx : count_nonzero nx = count_nonzero s + 1 := by
    rw [hcnt, count_nonzero_convert]
  cases hrec : search env fuel (cacheReward env st s) nx with
  | none => rw [hrec] at h; exact absurd h (by simp)
  | some pr =>
    obtain ⟨value, st4⟩ := pr
    rw [hrec] at h
    dsimp only at h
    obtain ⟨hco4, hunt4, hmono4⟩ := search_effects env henv fuel
      (cacheReward env st s) nx value st4
      (coherent_cacheReward env st s hco) hrec
    obtain ⟨hu1, hu2, hu3, hu4⟩ := hunt4 s (by omega)
    cases hback : backup st4 s (selectAction
        (puctScore env (cacheReward env st s) s p ns) valid) value with
    | none => rw [hback] at h; exact absurd h (by simp)
    | some st5 =>
      rw [hback] at h
      have h' := Option.some.inj h
      rw [Prod.mk.injEq] at h'
      obtain ⟨hv', hst'⟩ := h'
      rw [← hst']
      obtain ⟨hsr5, hsp5, hsvm5, hw5, qnew, nnew, hq5, hn5, hqcase, k, hk,
        hsn5⟩ := backup_some_inv st4 s _ value st5 hback
      have hst4n_eq : ∀ a, lookup st4.sa_n (s, a) = lookup st.sa_n (s, a) :=
        fun a => by rw [hu2 a, cacheReward_sa_n]
      have hst4q_eq : ∀ a, lookup st4.sa_q (s, a) = lookup st.sa_q (s, a) :=
        fun a => by rw [hu1 a, cacheReward_sa_q]
      refine ⟨?_, ?_, coherent_backup env st4 s _ value st5 hco4 hback⟩
      · have hnnew : nnew = (lookup st.sa_n (s, selectAction
            (puctScore env (cacheReward env st s) s p ns) valid)).getD 0 + 1 := by
          rcases hqcase with ⟨-, hn1, hqnone⟩ | ⟨q, n, hoq, hon, -, hnn⟩
          · rw [hst4q_eq _] at hqnone
            have hns : ¬ (lookup st.sa_n (s, selectAction
                (puctScore env (cacheReward env st s) s p ns) valid)).isSome := by
              rw [← hco.qn_dom]
              rw [hqnone]
              simp
            rw [Option.not_isSome_iff_eq_none.mp hns, hn1]
            rfl
          · rw [hst4n_eq _] at hon
            rw [hon, hnn]
            rfl
        refine rootCountSum_update st st5 s
          (selectAction (puctScore env (cacheReward env st s) s p ns) valid)
          hga.1 hga.2.1 ?_ ?_
        · intro a ha
          have hkey : ((s, a) : Board × Int) ≠ (s, selectAction
              (puctScore env (cacheReward env st s) s p ns) valid) := by
            intro hh
            exact ha (congrArg Prod.snd hh)
          rw [hn5, lookup_cons, if_neg hkey, hst4n_eq a]
        · rw [hn5, lookup_cons, if_pos rfl, hnnew]
          rfl
      · rw [hsp5]
        have hmp := hmono4 s p (by rw [cacheReward_s_p]; exact hp')
        rw [hmp]
        rfl

theorem rootCountSum_nil (st : MCTSState) (s : Board) (h : st.sa_n = []) :
    rootCountSum st s = 0 := by
  unfold rootCountSum rootCounts
  rw [h]
  simp [lookup]

/-- Running the playout loop from an already-expanded root adds exactly the
playout count to the root edge-visit sum. -/
theorem runPlayouts_counts (env : Env) (henv : goodEnv env) :
    ∀ (N fuel : Nat) (st : MCTSState) (s : Board) (st'' : MCTSState),
      Coherent env st → (lookup st.s_p s).isSome →
      runPlayouts env fuel st s N = some st'' →
      rootCountSum st'' s = rootCountSum st s + N := by
  intro N
  induction N with
  | zero =>
    intro fuel st s st'' _ _ h
    simp only [runPlayouts] at h
    obtain rfl := Option.some.inj h
    omega
  | succ N ih =>
    intro fuel st s st'' hco hp h
    simp only [runPlayouts] at h
    cases hs1 : search env fuel st s with
    | none => rw [hs1] at h; exact absurd h (by simp)
    | some pr =>
      obtain ⟨v, st1⟩ := pr
      rw [hs1] at h
      dsimp only at h
      cases fuel with
      | zero => exact absurd hs1 (by simp [search])
      | succ f =>
        obtain ⟨hsum, hp1, hco1⟩ :=
          search_selection_increments env henv f st s v st1 hco hp hs1
        have hrest := ih (f + 1) st1 s st'' hco1 hp1 h
        omega

/-- Claim C1, counterexample: one playout (N = 1) from a fresh store on a
non-terminal root leaves the root edge-visit sum at 0, not 1 — the first
playout takes the expansion branch and touches no edge. -/
theorem c1_counterexample :
    envW.get_reward bW = 0 ∧ count_nonzero bW ≠ BOARD_SIZE ∧
    (runPlayouts envW 2 emptyStore bW 1).map (fun st => rootCountSum st bW)
      = some 0 ∧ (0 : Nat) ≠ 1 := by
  refine ⟨by decide, by decide, ?_, by decide⟩
  decide

/-- Claim C1, amended: with a legal-move oracle returning nonempty sets of
in-range empty cells on non-terminal boards, running `search` N ≥ 1 times
from a fresh store on a non-terminal root leaves the root edge visit counts
summing to exactly N - 1: the first playout expands the root without touching
edges, and every later playout increments exactly one root edge. -/
theorem c1_amended_root_edge_visits (env : Env) (fuel N : Nat) (s : Board)
    (st' : MCTSState) (henv : goodEnv env)
    (hr : env.get_reward s = 0) (hc : count_nonzero s ≠ BOARD_SIZE)
    (hN : 1 ≤ N)
    (hrun : runPlayouts env fuel emptyStore s N = some st') :
    rootCountSum st' s = N - 1 := by
  obtain ⟨M, rfl⟩ : ∃ M, N = M + 1 := ⟨N - 1, by omega⟩
  simp only [runPlayouts] at hrun
  cases hs1 : search env fuel emptyStore s with
  | none => rw [hs1] at hrun; exact absurd hrun (by simp)
  | some pr =>
    obtain ⟨v, st1⟩ := pr
    rw [hs1] at hrun
    dsimp only at hrun
    cases fuel with
    | zero => exact absurd hs1 (by simp [search])
    | succ f =>
      have hcached : cachedReward env emptyStore s = 0 := by
        unfold cachedReward
        simp [emptyStore, lookup, hr]
      have hpnone : lookup emptyStore.s_p s = none := rfl
      rw [search_succ, searchStep_expand env (search env f) emptyStore s
        hcached hc hpnone] at hs1
      have h' := Option.some.inj hs1
      rw [Prod.mk.injEq] at h'
      obtain ⟨hv1, hst1⟩ := h'
      have hco1 : Coherent env st1 := by
        rw [← hst1]
        exact coherent_expand env (cacheReward env emptyStore s) s
          (coherent_cacheReward env emptyStore s (coherent_empty env)) hr hc
      have hp1 : (lookup st1.s_p s).isSome := by
        rw [← hst1, expandState_s_p, lookup_cons, if_pos rfl]
        rfl
      have hcnt1 : rootCountSum st1 s = 0 := by
        apply rootCountSum_nil
        rw [← hst1, expandState_sa_n, cacheReward_sa_n]
        rfl
      have hfin := runPlayouts_counts env henv M (f + 1) st1 s st' hco1 hp1 hrun
      omega

/-- Witness for the amended claim C1: two playouts from a fresh store at the
concrete non-terminal root `bW` leave the root edge-visit sum at 1. -/
theorem c1_amended_witness :
    ∃ st, runPlayouts envW 3 emptyStore bW 2 = some st ∧
      rootCountSum st bW = 2 - 1 := by
  have hgood : goodEnv envW := by
    intro b hb hc
    have hbW : b = bW := by
      by_contra hneq
      rw [show envW.get_reward b = if b = bW then 0 else 1 from rfl,
        if_neg hneq] at hb
      exact absurd hb (by decide)
    subst hbW
    refine ⟨by decide, ?_⟩
    intro a ha
    rw [show envW.get_valid_actions_1d bW = [1] from rfl] at ha
    have ha1 : a = 1 := by simpa using ha
    subst ha1
    show (0 : Int) ≤ 1 ∧ (1 : Int) < (BOARD_SIZE : Int) ∧
      getCell bW (index_to_pos 1) = some 0
    refine ⟨by decide, by decide, by decide⟩
  have hsome : (runPlayouts envW 3 emptyStore bW 2).isSome = true := by decide
  obtain ⟨st, hst⟩ := Option.isSome_iff_exists.mp hsome
  exact ⟨st, hst, c1_amended_root_edge_visits envW 3 2 bW st hgood
    (by decide) (by decide) (by decide) hst⟩

end AlphaGomoku
